import Mathlib

/-!
# Document versioning store (pkg/mongo/document_service.go)

A shallow embedding of the five operations of `documentService` together with
the part of the MongoDB collection interface they use (`Find` with filter,
sort and limit, `InsertOne`, `ReplaceOne`, `DeleteOne`, `DeleteMany`, and the
cursor calls `Next` and `Decode`).

* The collection is an ordered list of records.  The order of the list is the
  natural order of the backend: `Find` without sort iterates in that order,
  `InsertOne` appends, `ReplaceOne` and `DeleteOne` act on the first match.
* Every driver call first consumes one entry of a scripted list of outcomes,
  so that a backend failure can strike any single call; `cursor.Decode`
  fails on the records marked as malformed.
* Go `int` is taken as the 64-bit signed integer of the platforms the service
  runs on.  Values are carried as `Int`; the one arithmetic operation of the
  store (`DocVersion + 1`) is wrapped explicitly.
-/

namespace Knowledge

/-! ## Data model (pkg/knowledge.go) -/

/-- One entry of `ClientDocument.Elements` (fields `Text` and `Type`). -/
structure Element where
  Text : String
  Typ : String
deriving DecidableEq

/-- The struct `pkg.ClientDocument`. -/
structure ClientDocument where
  DocID : Int
  DocURL : String
  Elements : List Element
deriving DecidableEq

/-- The struct `pkg.DBDocument`. -/
structure DBDocument where
  DocVersion : Int
  ClientDoc : ClientDocument
deriving DecidableEq

/-- A Go `error` value. -/
structure Err where
  msg : String
deriving DecidableEq

/-! ## Machine integers -/

/-- Largest value of a 64-bit Go `int`. -/
def maxInt : Int := 9223372036854775807

/-- Smallest value of a 64-bit Go `int`. -/
def minInt : Int := -9223372036854775808

/-- Wrap-around of a result to the range of a 64-bit signed Go `int`. -/
def wrapInt (x : Int) : Int :=
  (x + 9223372036854775808) % 18446744073709551616 - 9223372036854775808

/-! ## The collection (go.mongodb.org/mongo-driver, as used by the store) -/

/-- A record of the collection.  `ok d` is a well formed record, the BSON
image of the `DBDocument` `d`.  `bad docID docVersion residue e` is a record
whose fields `doc.doc_id` and `doc_version` hold the given numbers (so that
filters and sorting see them) but on which `cursor.Decode` reports `e`,
leaving `residue` in the destination struct. -/
inductive Record where
  | ok (d : DBDocument)
  | bad (docID docVersion : Int) (residue : DBDocument) (e : Err)
deriving DecidableEq

/-- Value of the field `doc.doc_id` of a record. -/
def Record.docID : Record → Int
  | .ok d => d.ClientDoc.DocID
  | .bad i _ _ _ => i

/-- Value of the field `doc_version` of a record. -/
def Record.docVersion : Record → Int
  | .ok d => d.DocVersion
  | .bad _ v _ _ => v

/-- The call `cursor.Decode(doc)` on a freshly allocated `doc`: the content of
`doc` afterwards and the returned error. -/
def Record.Decode : Record → DBDocument × Option Err
  | .ok d => (d, none)
  | .bad _ _ residue e => (residue, some e)

/-- The state of the backend: the records in natural order and the outcomes
(`none` = success) of the driver calls still to come; when the list is
exhausted every further call succeeds. -/
structure Collection where
  records : List Record
  faults : List (Option Err)

/-- One round trip to the backend: the next scripted outcome is consumed. -/
def Collection.call (c : Collection) : Option Err × Collection :=
  match c.faults with
  | [] => (none, c)
  | f :: fs => (f, ⟨c.records, fs⟩)

/-- The filters `bson.D` built by the store: equality on `doc.doc_id` and/or
on `doc_version`. -/
structure Filter where
  docID : Option Int
  docVersion : Option Int

/-- Whether a record satisfies a filter. -/
def Filter.matches (f : Filter) (r : Record) : Bool :=
  (match f.docID with
   | none => true
   | some i => decide (r.docID = i)) &&
  (match f.docVersion with
   | none => true
   | some v => decide (r.docVersion = v))

/-- The find options the store sets: `SetSort(bson.D{{"doc_version", -1}})`
and `SetLimit(n)`. -/
structure FindOptions where
  sortVersionDesc : Bool
  limit : Option Nat

/-- Order of a sort by `doc_version` descending. -/
def versionDesc (a b : Record) : Prop := b.docVersion ≤ a.docVersion

instance versionDesc.decidableRel : DecidableRel versionDesc :=
  fun a b => inferInstanceAs (Decidable (b.docVersion ≤ a.docVersion))

instance versionDesc.isTotal : IsTotal Record versionDesc :=
  ⟨fun a b => le_total b.docVersion a.docVersion⟩

instance versionDesc.isTrans : IsTrans Record versionDesc :=
  ⟨fun _ _ _ hab hbc => le_trans hbc hab⟩

/-- The records a query yields: those matching the filter, in natural order
unless a sort is requested, cut to the limit if one is set. -/
def findRecords (records : List Record) (filter : Filter) (opts : FindOptions) :
    List Record :=
  let matched := records.filter filter.matches
  let sorted := if opts.sortVersionDesc then matched.insertionSort versionDesc else matched
  match opts.limit with
  | none => sorted
  | some n => sorted.take n

/-- The call `collection.Find(ctx, filter, options)`: an error, or the cursor
over the records the query yields. -/
def Collection.Find (c : Collection) (filter : Filter) (opts : FindOptions) :
    Except Err (List Record) × Collection :=
  match c.call with
  | (some e, c1) => (.error e, c1)
  | (none, c1) => (.ok (findRecords c1.records filter opts), c1)

/-- The call `collection.InsertOne(ctx, dbDoc)`. -/
def Collection.InsertOne (c : Collection) (d : DBDocument) : Option Err × Collection :=
  match c.call with
  | (some e, c1) => (some e, c1)
  | (none, c1) => (none, ⟨c1.records ++ [Record.ok d], c1.faults⟩)

/-- Replace the first element satisfying `p` by `x`. -/
def replaceFirst (p : Record → Bool) (x : Record) : List Record → List Record
  | [] => []
  | r :: rs => if p r then x :: rs else r :: replaceFirst p x rs

/-- The call `collection.ReplaceOne(ctx, filter, dbDoc)`: the first matching
record, if any, is replaced in place. -/
def Collection.ReplaceOne (c : Collection) (filter : Filter) (d : DBDocument) :
    Option Err × Collection :=
  match c.call with
  | (some e, c1) => (some e, c1)
  | (none, c1) => (none, ⟨replaceFirst filter.matches (Record.ok d) c1.records, c1.faults⟩)

/-- The call `collection.DeleteOne(ctx, filter)`: the first matching record,
if any, is removed. -/
def Collection.DeleteOne (c : Collection) (filter : Filter) : Option Err × Collection :=
  match c.call with
  | (some e, c1) => (some e, c1)
  | (none, c1) => (none, ⟨c1.records.eraseP filter.matches, c1.faults⟩)

/-- The call `collection.DeleteMany(ctx, filter)`: all matching records are
removed. -/
def Collection.DeleteMany (c : Collection) (filter : Filter) : Option Err × Collection :=
  match c.call with
  | (some e, c1) => (some e, c1)
  | (none, c1) => (none, ⟨c1.records.filter (fun r => !filter.matches r), c1.faults⟩)

/-! ## The store (pkg/mongo/document_service.go) -/

/-- The method `documentService.findOne`. -/
def findOne (c : Collection) (docID docVersion : Int) :
    (Option DBDocument × Option Err) × Collection :=
  let filter : Filter :=
    if docVersion = 0 then ⟨some docID, none⟩ else ⟨some docID, some docVersion⟩
  let options : FindOptions :=
    if docVersion = 0 then ⟨true, some 1⟩ else ⟨false, none⟩
  match c.Find filter options with
  | (.error err, c1) => ((none, some err), c1)
  | (.ok cursor, c1) =>
    match cursor with
    | [] => ((none, none), c1)
    | r :: _ =>
      match r.Decode with
      | (_, some err) => ((none, some err), c1)
      | (dbDoc, none) => ((some dbDoc, none), c1)

/-- The method `documentService.RetrieveDocument`. -/
def RetrieveDocument (c : Collection) (docID docVersion : Int) :
    (Option ClientDocument × Option Err) × Collection :=
  match findOne c docID docVersion with
  | ((_, some err), c1) => ((none, some err), c1)
  | ((none, none), c1) => ((none, none), c1)
  | ((some dbDoc, none), c1) => ((some dbDoc.ClientDoc, none), c1)

/-- The method `documentService.StoreDocument`. -/
def StoreDocument (c : Collection) (clientDoc : ClientDocument) :
    (Int × Option Err) × Collection :=
  match findOne c clientDoc.DocID 0 with
  | ((_, some err), c1) => ((0, some err), c1)
  | ((dbDocTmp, none), c1) =>
    let version : Int :=
      match dbDocTmp with
      | none => 1
      | some d => wrapInt (d.DocVersion + 1)
    let dbDoc : DBDocument := ⟨version, clientDoc⟩
    match c1.InsertOne dbDoc with
    | (some err, c2) => ((0, some err), c2)
    | (none, c2) => ((version, none), c2)

/-- The method `documentService.UpdateDocument`. -/
def UpdateDocument (c : Collection) (clientDoc : ClientDocument) (docVersion : Int) :
    Option Err × Collection :=
  let dbDoc : DBDocument := ⟨docVersion, clientDoc⟩
  let filter : Filter := ⟨some clientDoc.DocID, some docVersion⟩
  match c.ReplaceOne filter dbDoc with
  | (some err, c1) => (some err, c1)
  | (none, c1) => (none, c1)

/-- The method `documentService.RemoveDocument`. -/
def RemoveDocument (c : Collection) (docID docVersion : Int) : Option Err × Collection :=
  if docVersion = 0 then
    c.DeleteMany ⟨some docID, none⟩
  else
    c.DeleteOne ⟨some docID, some docVersion⟩

/-- The loop `for cursor.Next(ctx) { ... }` of `RetrieveDocuments`: every
record is decoded into a fresh `doc`, the result of `Decode` is assigned to
`err`, and `doc.ClientDoc` is appended to `docs`. -/
def decodeLoop : List Record → List ClientDocument → Option Err →
    List ClientDocument × Option Err
  | [], docs, err => (docs, err)
  | r :: cursor, docs, _ => decodeLoop cursor (docs ++ [r.Decode.1.ClientDoc]) r.Decode.2

/-- The method `documentService.RetrieveDocuments`; the first component of
the result is the returned pointer (`none` = nil). -/
def RetrieveDocuments (c : Collection) (docVersion : Int) :
    (Option (List ClientDocument) × Option Err) × Collection :=
  match c.Find ⟨none, some docVersion⟩ ⟨false, none⟩ with
  | (.error err, c1) => ((none, some err), c1)
  | (.ok cursor, c1) =>
    let out := decodeLoop cursor [] none
    ((some out.1, out.2), c1)

/-! ## Sequences of calls -/

/-- A mutating call on the store. -/
inductive Call where
  | store (clientDoc : ClientDocument)
  | update (clientDoc : ClientDocument) (docVersion : Int)
  | remove (docID docVersion : Int)

/-- The collection after one call. -/
def Call.exec (c : Collection) : Call → Collection
  | .store clientDoc => (StoreDocument c clientDoc).2
  | .update clientDoc docVersion => (UpdateDocument c clientDoc docVersion).2
  | .remove docID docVersion => (RemoveDocument c docID docVersion).2

/-- The collection after a sequence of calls executed one after another. -/
def execAll (c : Collection) : List Call → Collection
  | [] => c
  | x :: xs => execAll (x.exec c) xs

/-- The results of `StoreDocument` called on each document in turn. -/
def storeAll (c : Collection) : List ClientDocument → List (Int × Option Err)
  | [] => []
  | doc :: docs => (StoreDocument c doc).1 :: storeAll (StoreDocument c doc).2 docs

/-- The versions returned by the successful `StoreDocument` calls for
`doc_id = d` within a sequence of calls, in call order. -/
def storedVersions (d : Int) (c : Collection) : List Call → List Int
  | [] => []
  | .store clientDoc :: xs =>
    let out := StoreDocument c clientDoc
    if clientDoc.DocID = d ∧ out.1.2 = none then
      out.1.1 :: storedVersions d out.2 xs
    else
      storedVersions d out.2 xs
  | .update clientDoc docVersion :: xs =>
    storedVersions d (UpdateDocument c clientDoc docVersion).2 xs
  | .remove docID docVersion :: xs =>
    storedVersions d (RemoveDocument c docID docVersion).2 xs

/-! ## Predicates used in the statements -/

/-- No backend failure: every scripted outcome is a success. -/
def NoFault (c : Collection) : Prop := ∀ f ∈ c.faults, f = none

/-- No `doc_id` has two records with the same `doc_version`. -/
def UniqueVersions (c : Collection) : Prop :=
  (c.records.map (fun r => (r.docID, r.docVersion))).Nodup

/-- The collection with no record and a backend that never fails. -/
def emptyCollection : Collection := ⟨[], []⟩

/-- The largest version stored for `d` is `m`, where `m = 0` stands for "no
record of `d`". -/
def LatestIs (d : Int) (records : List Record) (m : Int) : Prop :=
  (∀ r ∈ records, r.docID = d → r.docVersion ≤ m) ∧
  ((m = 0 ∧ ∀ r ∈ records, r.docID ≠ d) ∨
   (1 ≤ m ∧ ∃ r ∈ records, r.docID = d ∧ r.docVersion = m))

/-- Every stored version is a 64-bit value that stays one after `n` further
increments. -/
def VersionsBelow (records : List Record) (n : Int) : Prop :=
  ∀ r ∈ records, minInt ≤ r.docVersion ∧ r.docVersion + n ≤ maxInt

/-- The largest version of `d` stored in `before` is still stored for `d` in
`after`. -/
def KeepsLatest (d : Int) (before after : List Record) : Prop :=
  ∀ r ∈ before, r.docID = d →
    (∀ r1 ∈ before, r1.docID = d → r1.docVersion ≤ r.docVersion) →
    ∃ r2 ∈ after, r2.docID = d ∧ r2.docVersion = r.docVersion

/-- Along the sequence of calls run from `c`, no `RemoveDocument` call deletes
the largest version of `d` stored at that moment. -/
def RemovalsKeepLatest (d : Int) : Collection → List Call → Prop
  | _, [] => True
  | c, .store clientDoc :: xs => RemovalsKeepLatest d (StoreDocument c clientDoc).2 xs
  | c, .update clientDoc docVersion :: xs =>
    RemovalsKeepLatest d (UpdateDocument c clientDoc docVersion).2 xs
  | c, .remove docID docVersion :: xs =>
    KeepsLatest d c.records (RemoveDocument c docID docVersion).2.records ∧
    RemovalsKeepLatest d (RemoveDocument c docID docVersion).2 xs

/-! ## The backend calls -/

theorem call_records (c : Collection) : c.call.2.records = c.records := by
  unfold Collection.call
  cases c.faults <;> rfl

theorem call_noFault (c : Collection) (h : NoFault c) :
    c.call.1 = none ∧ NoFault c.call.2 := by
  unfold Collection.call
  unfold NoFault at *
  cases hf : c.faults with
  | nil => exact ⟨rfl, by simp [hf]⟩
  | cons f fs =>
    rw [hf] at h
    exact ⟨h f (List.mem_cons_self _ _), fun g hg => h g (List.mem_cons_of_mem _ hg)⟩

theorem call_eq_of_noFault (c : Collection) (h : NoFault c) :
    ∃ c1, c.call = (none, c1) ∧ c1.records = c.records ∧ NoFault c1 := by
  refine ⟨c.call.2, ?_, call_records c, (call_noFault c h).2⟩
  have h1 := (call_noFault c h).1
  exact Prod.ext h1 rfl

theorem matches_id (id : Int) (r : Record) :
    Filter.matches ⟨some id, none⟩ r = decide (r.docID = id) := by
  simp [Filter.matches]

theorem matches_both (id v : Int) (r : Record) :
    Filter.matches ⟨some id, some v⟩ r = decide (r.docID = id ∧ r.docVersion = v) := by
  simp [Filter.matches]

theorem matches_version (v : Int) (r : Record) :
    Filter.matches ⟨none, some v⟩ r = decide (r.docVersion = v) := by
  simp [Filter.matches]

/-- The query "latest version of `id`" yields nothing when no record carries
`id`, and otherwise exactly one record of `id` of maximal version. -/
theorem findRecords_latest (records : List Record) (id : Int) :
    (findRecords records ⟨some id, none⟩ ⟨true, some 1⟩ = [] ∧
        ∀ r ∈ records, r.docID ≠ id) ∨
    ∃ r, findRecords records ⟨some id, none⟩ ⟨true, some 1⟩ = [r] ∧ r ∈ records ∧
        r.docID = id ∧ ∀ r1 ∈ records, r1.docID = id → r1.docVersion ≤ r.docVersion := by
  have hmem : ∀ r, r ∈ records.filter (Filter.matches ⟨some id, none⟩) ↔
      r ∈ records ∧ r.docID = id := by
    intro r
    simp [List.mem_filter, matches_id]
  have hperm := List.perm_insertionSort versionDesc
    (records.filter (Filter.matches ⟨some id, none⟩))
  have hsorted := List.sorted_insertionSort versionDesc
    (records.filter (Filter.matches ⟨some id, none⟩))
  simp only [findRecords, if_true]
  cases hs : (records.filter (Filter.matches ⟨some id, none⟩)).insertionSort versionDesc with
  | nil =>
    left
    refine ⟨rfl, ?_⟩
    intro r hr hid
    have : r ∈ (records.filter (Filter.matches ⟨some id, none⟩)).insertionSort versionDesc :=
      hperm.mem_iff.mpr ((hmem r).mpr ⟨hr, hid⟩)
    rw [hs] at this
    exact absurd this (List.not_mem_nil r)
  | cons x xs =>
    right
    rw [hs] at hperm hsorted
    have hx : x ∈ records ∧ x.docID = id :=
      (hmem x).mp (hperm.mem_iff.mp (List.mem_cons_self x xs))
    refine ⟨x, by simp, hx.1, hx.2, ?_⟩
    intro r1 hr1 hid1
    have h1 : r1 ∈ x :: xs := hperm.mem_iff.mpr ((hmem r1).mpr ⟨hr1, hid1⟩)
    rcases List.mem_cons.mp h1 with rfl | h2
    · exact le_refl _
    · exact List.rel_of_sorted_cons hsorted r1 h2

/-- A query without sort and limit yields the matching records in natural
order. -/
theorem findRecords_plain (records : List Record) (filter : Filter) :
    findRecords records filter ⟨false, none⟩ = records.filter filter.matches := by
  simp [findRecords]

/-! ## What each operation does to the records -/

/-- The call `findOne` for the latest version: a backend error, a decode error
on the latest record, not found when no record carries the id, or a decoded
record of the id of maximal version. -/
theorem findOne_latest (c : Collection) (id : Int) :
    (findOne c id 0).2 = c.call.2 ∧
    ((∃ e, (findOne c id 0).1 = (none, some e) ∧
        (c.call.1 = some e ∨ ∃ r ∈ c.records, r.docID = id ∧ r.Decode.2 = some e)) ∨
     ((findOne c id 0).1 = (none, none) ∧ c.call.1 = none ∧
        ∀ r ∈ c.records, r.docID ≠ id) ∨
     (∃ d, (findOne c id 0).1 = (some d, none) ∧ c.call.1 = none ∧
        Record.ok d ∈ c.records ∧ d.ClientDoc.DocID = id ∧
        ∀ r ∈ c.records, r.docID = id → r.docVersion ≤ d.DocVersion)) := by
  have hr := call_records c
  rcases hc : c.call with ⟨_ | e, c1⟩
  · rw [hc] at hr
    simp only at hr
    rcases findRecords_latest c1.records id with ⟨h0, hno⟩ | ⟨r, h1, hmem, hid, hmax⟩
    · have hf : findOne c id 0 = ((none, none), c1) := by
        simp [findOne, Collection.Find, hc, h0]
      rw [hf]
      refine ⟨rfl, Or.inr (Or.inl ⟨rfl, rfl, ?_⟩)⟩
      rw [← hr]; exact hno
    · cases r with
      | ok d =>
        have hf : findOne c id 0 = ((some d, none), c1) := by
          simp [findOne, Collection.Find, hc, h1, Record.Decode]
        rw [hf]
        refine ⟨rfl, Or.inr (Or.inr ⟨d, rfl, rfl, ?_, hid, ?_⟩)⟩
        · rw [← hr]; exact hmem
        · rw [← hr]; exact hmax
      | bad i v residue e =>
        have hf : findOne c id 0 = ((none, some e), c1) := by
          simp [findOne, Collection.Find, hc, h1, Record.Decode]
        rw [hf]
        refine ⟨rfl, Or.inl ⟨e, rfl, Or.inr ⟨_, ?_, hid, rfl⟩⟩⟩
        rw [← hr]; exact hmem
  · have hf : findOne c id 0 = ((none, some e), c1) := by
      simp [findOne, Collection.Find, hc]
    rw [hf]
    exact ⟨rfl, Or.inl ⟨e, rfl, Or.inl rfl⟩⟩

/-- The call `StoreDocument` either reports an error and leaves the records as
they are, or appends one well formed record holding the payload at the
returned version, which is 1 when the id is new and otherwise the wrapped
successor of the maximal stored version of the id. -/
theorem StoreDocument_spec (c : Collection) (doc : ClientDocument) :
    ((StoreDocument c doc).1.2 ≠ none ∧ (StoreDocument c doc).2.records = c.records) ∨
    ((StoreDocument c doc).1.2 = none ∧
      (StoreDocument c doc).2.records
        = c.records ++ [Record.ok ⟨(StoreDocument c doc).1.1, doc⟩] ∧
      (((∀ r ∈ c.records, r.docID ≠ doc.DocID) ∧ (StoreDocument c doc).1.1 = 1) ∨
       ∃ d, Record.ok d ∈ c.records ∧ d.ClientDoc.DocID = doc.DocID ∧
         (∀ r ∈ c.records, r.docID = doc.DocID → r.docVersion ≤ d.DocVersion) ∧
         (StoreDocument c doc).1.1 = wrapInt (d.DocVersion + 1))) := by
  obtain ⟨h2, hcases⟩ := findOne_latest c doc.DocID
  have hr := call_records c
  have hr2 := call_records c.call.2
  rcases hf : findOne c doc.DocID 0 with ⟨⟨o, oe⟩, c1⟩
  rw [hf] at h2 hcases
  simp only at h2 hcases
  subst h2
  rcases hcases with ⟨e, he, -⟩ | ⟨he, -, hno⟩ | ⟨d, he, -, hmem, hid, hmax⟩
  · left
    simp only [Prod.mk.injEq] at he
    obtain ⟨rfl, rfl⟩ := he
    simp [StoreDocument, hf, hr]
  · simp only [Prod.mk.injEq] at he
    obtain ⟨rfl, rfl⟩ := he
    rcases hc : c.call.2.call with ⟨_ | e, c2⟩
    · right
      rw [hc] at hr2
      simp only at hr2
      simp [StoreDocument, hf, Collection.InsertOne, hc, hr2, hr]
      exact Or.inl hno
    · left
      rw [hc] at hr2
      simp only at hr2
      simp [StoreDocument, hf, Collection.InsertOne, hc, hr2, hr]
  · simp only [Prod.mk.injEq] at he
    obtain ⟨rfl, rfl⟩ := he
    rcases hc : c.call.2.call with ⟨_ | e, c2⟩
    · right
      rw [hc] at hr2
      simp only at hr2
      simp [StoreDocument, hf, Collection.InsertOne, hc, hr2, hr]
      exact Or.inr ⟨d, hmem, hid, hmax, rfl⟩
    · left
      rw [hc] at hr2
      simp only at hr2
      simp [StoreDocument, hf, Collection.InsertOne, hc, hr2, hr]

/-- The call `UpdateDocument` either reports an error and leaves the records
as they are, or replaces the first record matching the id of the payload and
the version. -/
theorem UpdateDocument_spec (c : Collection) (doc : ClientDocument) (v : Int) :
    ((UpdateDocument c doc v).1 ≠ none ∧ (UpdateDocument c doc v).2.records = c.records) ∨
    ((UpdateDocument c doc v).1 = none ∧
      (UpdateDocument c doc v).2.records
        = replaceFirst (Filter.matches ⟨some doc.DocID, some v⟩) (Record.ok ⟨v, doc⟩)
            c.records) := by
  have hr := call_records c
  rcases hc : c.call with ⟨_ | e, c1⟩
  · right
    rw [hc] at hr
    simp only at hr
    simp [UpdateDocument, Collection.ReplaceOne, hc, hr]
  · left
    rw [hc] at hr
    simp only at hr
    simp [UpdateDocument, Collection.ReplaceOne, hc, hr]

/-- The call `RemoveDocument` either reports an error and leaves the records
as they are, or removes every record of the id (version 0) or the first
record matching id and version (any other version). -/
theorem RemoveDocument_spec (c : Collection) (id v : Int) :
    ((RemoveDocument c id v).1 ≠ none ∧ (RemoveDocument c id v).2.records = c.records) ∨
    ((RemoveDocument c id v).1 = none ∧
      (RemoveDocument c id v).2.records
        = if v = 0 then c.records.filter (fun r => !Filter.matches ⟨some id, none⟩ r)
          else c.records.eraseP (Filter.matches ⟨some id, some v⟩)) := by
  have hr := call_records c
  rcases hc : c.call with ⟨_ | e, c1⟩
  · right
    rw [hc] at hr
    simp only at hr
    by_cases hv : v = 0
    · simp [RemoveDocument, Collection.DeleteMany, hc, hr, hv]
    · simp [RemoveDocument, Collection.DeleteOne, hc, hr, hv]
  · left
    rw [hc] at hr
    simp only at hr
    by_cases hv : v = 0
    · simp [RemoveDocument, Collection.DeleteMany, hc, hr, hv]
    · simp [RemoveDocument, Collection.DeleteOne, hc, hr, hv]

/-! ## Behaviour when the backend does not fail -/

theorem findOne_noFault (c : Collection) (id v : Int) (h : NoFault c) :
    NoFault (findOne c id v).2 := by
  obtain ⟨c1, hc, -, hn⟩ := call_eq_of_noFault c h
  simp only [findOne, Collection.Find, hc]
  repeat' split
  all_goals exact hn

theorem StoreDocument_noFault (c : Collection) (doc : ClientDocument) (h : NoFault c) :
    NoFault (StoreDocument c doc).2 := by
  have h1 := findOne_noFault c doc.DocID 0 h
  unfold StoreDocument
  split
  · simp_all
  · rename_i dbDocTmp c1 hf
    rw [hf] at h1
    obtain ⟨c2, hc, -, hn⟩ := call_eq_of_noFault c1 h1
    simp only [Collection.InsertOne, hc]
    exact hn

theorem UpdateDocument_noFault (c : Collection) (doc : ClientDocument) (v : Int)
    (h : NoFault c) :
    (UpdateDocument c doc v).1 = none ∧ NoFault (UpdateDocument c doc v).2 := by
  obtain ⟨c1, hc, -, hn⟩ := call_eq_of_noFault c h
  simp only [UpdateDocument, Collection.ReplaceOne, hc]
  exact ⟨trivial, hn⟩

theorem RemoveDocument_noFault (c : Collection) (id v : Int) (h : NoFault c) :
    (RemoveDocument c id v).1 = none ∧ NoFault (RemoveDocument c id v).2 := by
  obtain ⟨c1, hc, -, hn⟩ := call_eq_of_noFault c h
  by_cases hv : v = 0
  · simp only [RemoveDocument, hv, if_true, Collection.DeleteMany, hc]
    exact ⟨trivial, hn⟩
  · simp only [RemoveDocument, hv, if_false, Collection.DeleteOne, hc]
    exact ⟨trivial, hn⟩

/-- Without backend failure `findOne` for an exact version decodes the first
record matching id and version, in natural order. -/
theorem findOne_exact (c : Collection) (id v : Int) (h : NoFault c) (hv : v ≠ 0) :
    (findOne c id v).1 =
      match c.records.filter (Filter.matches ⟨some id, some v⟩) with
      | [] => (none, none)
      | r :: _ =>
        match r.Decode with
        | (_, some err) => (none, some err)
        | (dbDoc, none) => (some dbDoc, none) := by
  obtain ⟨c1, hc, hr, -⟩ := call_eq_of_noFault c h
  simp only [findOne, Collection.Find, hc, hv, if_false, findRecords_plain, hr]
  repeat' split
  all_goals simp_all

theorem RetrieveDocument_fst (c : Collection) (id v : Int) :
    (RetrieveDocument c id v).1 =
      match (findOne c id v).1 with
      | (_, some err) => (none, some err)
      | (none, none) => (none, none)
      | (some dbDoc, none) => (some dbDoc.ClientDoc, none) := by
  unfold RetrieveDocument
  repeat' split
  all_goals simp_all

/-- Without backend failure and with decodable records of the id, `findOne`
for the latest version is not found exactly when no record carries the id and
otherwise yields a record of the id of maximal version. -/
theorem findOne_latest_noFault (c : Collection) (id : Int) (h : NoFault c)
    (hok : ∀ r ∈ c.records, r.docID = id → r.Decode.2 = none) :
    ((findOne c id 0).1 = (none, none) ∧ ∀ r ∈ c.records, r.docID ≠ id) ∨
    (∃ d, (findOne c id 0).1 = (some d, none) ∧
        Record.ok d ∈ c.records ∧ d.ClientDoc.DocID = id ∧
        ∀ r ∈ c.records, r.docID = id → r.docVersion ≤ d.DocVersion) := by
  rcases (findOne_latest c id).2 with ⟨e, -, he | ⟨r, hr, hid, hdec⟩⟩ | ⟨hf, -, hno⟩ |
    ⟨d, hf, -, hrest⟩
  · rw [(call_noFault c h).1] at he
    exact absurd he (by simp)
  · rw [hok r hr hid] at hdec
    exact absurd hdec (by simp)
  · exact Or.inl ⟨hf, hno⟩
  · exact Or.inr ⟨d, hf, hrest⟩

theorem filter_eraseP_disjoint (p q : Record → Bool) (hpq : ∀ r, q r = true → p r = false)
    (l : List Record) : (l.eraseP q).filter p = l.filter p := by
  induction l with
  | nil => rfl
  | cons a t ih =>
    by_cases hq : q a = true
    · simp [List.eraseP_cons, hq, List.filter_cons, hpq a hq]
    · simp [List.eraseP_cons, hq, List.filter_cons, ih]

theorem filter_replaceFirst_head (p : Record → Bool) (x : Record) (hx : p x = true)
    (l : List Record) (hex : ∃ r ∈ l, p r = true) :
    ∃ t, (replaceFirst p x l).filter p = x :: t := by
  induction l with
  | nil => simp at hex
  | cons a t ih =>
    by_cases hp : p a = true
    · exact ⟨t.filter p, by simp [replaceFirst, hp, List.filter_cons, hx]⟩
    · have hex2 : ∃ r ∈ t, p r = true := by
        obtain ⟨r, hr, hpr⟩ := hex
        rcases List.mem_cons.mp hr with rfl | hr2
        · exact absurd hpr hp
        · exact ⟨r, hr2, hpr⟩
      obtain ⟨t2, ht2⟩ := ih hex2
      exact ⟨t2, by simp [replaceFirst, hp, List.filter_cons, ht2]⟩

theorem decodeLoop_fst (cursor : List Record) (docs : List ClientDocument)
    (err : Option Err) :
    (decodeLoop cursor docs err).1 = docs ++ cursor.map (fun r => r.Decode.1.ClientDoc) := by
  induction cursor generalizing docs err with
  | nil => simp [decodeLoop]
  | cons r t ih => simp [decodeLoop, ih]

theorem decodeLoop_snd (cursor : List Record) (docs : List ClientDocument)
    (err : Option Err) (herr : err = none) (hok : ∀ r ∈ cursor, r.Decode.2 = none) :
    (decodeLoop cursor docs err).2 = none := by
  induction cursor generalizing docs err with
  | nil => simpa [decodeLoop] using herr
  | cons r t ih =>
    simp only [decodeLoop]
    exact ih _ _ (hok r (List.mem_cons_self r t)) (fun r1 h1 => hok r1 (List.mem_cons_of_mem r h1))

/-! ## Version assignment -/

theorem wrapInt_eq (x : Int) (h1 : minInt ≤ x) (h2 : x ≤ maxInt) : wrapInt x = x := by
  unfold wrapInt
  unfold minInt at h1
  unfold maxInt at h2
  omega

/-- Without backend failure and with decodable records of the id,
`StoreDocument` reports no error. -/
theorem StoreDocument_succeeds (c : Collection) (doc : ClientDocument) (h : NoFault c)
    (hok : ∀ r ∈ c.records, r.docID = doc.DocID → r.Decode.2 = none) :
    (StoreDocument c doc).1.2 = none := by
  have hn1 := findOne_noFault c doc.DocID 0 h
  have hcases := findOne_latest_noFault c doc.DocID h hok
  rcases hf : findOne c doc.DocID 0 with ⟨⟨o, oe⟩, c1⟩
  rw [hf] at hn1 hcases
  simp only at hn1 hcases
  obtain ⟨c2, hc, -, -⟩ := call_eq_of_noFault c1 hn1
  have hoe : oe = none := by
    rcases hcases with ⟨he, -⟩ | ⟨d, he, -⟩
    · exact (Prod.mk.inj he).2
    · exact (Prod.mk.inj he).2
  subst hoe
  simp [StoreDocument, hf, Collection.InsertOne, hc]

/-- When the largest stored version of the id is `m`, below the largest
integer, a `StoreDocument` that reports no error returns `m + 1` and appends
the record of that version. -/
theorem StoreDocument_step (c : Collection) (doc : ClientDocument) (m : Int)
    (hl : LatestIs doc.DocID c.records m) (hm : m + 1 ≤ maxInt) :
    ((StoreDocument c doc).1.2 ≠ none ∧ (StoreDocument c doc).2.records = c.records) ∨
    ((StoreDocument c doc).1 = (m + 1, none) ∧
      (StoreDocument c doc).2.records = c.records ++ [Record.ok ⟨m + 1, doc⟩]) := by
  rcases StoreDocument_spec c doc with h | ⟨herr, hrec, hver⟩
  · exact Or.inl h
  · right
    have hv : (StoreDocument c doc).1.1 = m + 1 := by
      rcases hver with ⟨hno, h1⟩ | ⟨d, hmem, hid, hmax, hw⟩
      · rcases hl.2 with ⟨h0, -⟩ | ⟨-, r, hr, hrid, -⟩
        · rw [h1, h0]; rfl
        · exact absurd hrid (hno r hr)
      · rcases hl.2 with ⟨-, hno⟩ | ⟨h1, r, hr, hrid, hrv⟩
        · exact absurd hid (hno _ hmem)
        · have hle : d.DocVersion ≤ m := hl.1 _ hmem hid
          have hge : m ≤ d.DocVersion := by
            have := hmax r hr hrid
            rw [hrv] at this
            exact this
          have heq : d.DocVersion = m := le_antisymm hle hge
          rw [hw, heq]
          apply wrapInt_eq
          · unfold minInt; omega
          · exact hm
    refine ⟨?_, ?_⟩
    · exact Prod.ext hv herr
    · rw [hrec, hv]

theorem LatestIs_append_same (d : Int) (records : List Record) (m : Int)
    (doc : ClientDocument) (hd : doc.DocID = d) (hm : 0 ≤ m)
    (hl : LatestIs d records m) :
    LatestIs d (records ++ [Record.ok ⟨m + 1, doc⟩]) (m + 1) := by
  refine ⟨?_, Or.inr ⟨by omega, Record.ok ⟨m + 1, doc⟩, by simp, hd, rfl⟩⟩
  intro r hr hid
  rcases List.mem_append.mp hr with h | h
  · have := hl.1 r h hid
    omega
  · rw [List.mem_singleton.mp h]
    exact le_refl _

/-- Core of C1: from a state whose largest version of `d` is `m`, successive
stores of documents of `d` return `m + 1`, `m + 2`, and so on. -/
theorem storeAll_from (d : Int) (docs : List ClientDocument) :
    ∀ (c : Collection) (m : Nat), NoFault c →
      (∀ r ∈ c.records, r.docID = d → r.Decode.2 = none) →
      LatestIs d c.records (m : Int) →
      (∀ doc ∈ docs, doc.DocID = d) →
      (m : Int) + (docs.length : Int) ≤ maxInt →
      storeAll c docs = (List.range' (m + 1) docs.length).map (fun k => ((k : Int), none)) := by
  induction docs with
  | nil => intro c m _ _ _ _ _; rfl
  | cons doc docs ih =>
    intro c m hnf hok hl hd hlen
    have hdoc : doc.DocID = d := hd doc (List.mem_cons_self _ _)
    have hlen2 : (m : Int) + 1 + (docs.length : Int) ≤ maxInt := by
      simp only [List.length_cons, Nat.cast_add, Nat.cast_one] at hlen
      omega
    have hsucc := StoreDocument_succeeds c doc hnf (by rw [hdoc]; exact hok)
    have hstep := StoreDocument_step c doc (m : Int) (by rw [hdoc]; exact hl) (by omega)
    rcases hstep with ⟨hne, -⟩ | ⟨hres, hrec⟩
    · exact absurd hsucc hne
    · have hih := ih (StoreDocument c doc).2 (m + 1) (StoreDocument_noFault c doc hnf)
        (by
          intro r hr hid
          rw [hrec] at hr
          rcases List.mem_append.mp hr with h | h
          · exact hok r h hid
          · rw [List.mem_singleton.mp h]; rfl)
        (by
          rw [hrec]
          have := LatestIs_append_same d c.records (m : Int) doc hdoc (by omega) hl
          simpa using this)
        (fun x hx => hd x (List.mem_cons_of_mem _ hx))
        (by push_cast; omega)
      simp only [storeAll, hres, hih, List.length_cons, List.range'_succ, List.map_cons]
      simp

/-! ## Replacement and removal of records -/

theorem map_key_replaceFirst (p : Record → Bool) (x : Record)
    (hp : ∀ r, p r = true → (r.docID, r.docVersion) = (x.docID, x.docVersion))
    (l : List Record) :
    (replaceFirst p x l).map (fun r => (r.docID, r.docVersion))
      = l.map (fun r => (r.docID, r.docVersion)) := by
  induction l with
  | nil => rfl
  | cons a t ih =>
    by_cases h : p a = true
    · simp [replaceFirst, h, hp a h]
    · simp [replaceFirst, h, ih]

theorem mem_replaceFirst (p : Record → Bool) (x a : Record) (l : List Record)
    (h : a ∈ replaceFirst p x l) : a ∈ l ∨ (a = x ∧ ∃ r0 ∈ l, p r0 = true) := by
  induction l with
  | nil => simp [replaceFirst] at h
  | cons b t ih =>
    by_cases hb : p b = true
    · simp only [replaceFirst] at h
      rw [if_pos hb] at h
      rcases List.mem_cons.mp h with h1 | h1
      · exact Or.inr ⟨h1, b, List.mem_cons_self _ _, hb⟩
      · exact Or.inl (List.mem_cons_of_mem _ h1)
    · simp only [replaceFirst] at h
      rw [if_neg hb] at h
      rcases List.mem_cons.mp h with h1 | h1
      · exact Or.inl (by rw [h1]; exact List.mem_cons_self _ _)
      · rcases ih h1 with h2 | ⟨h2, r0, hr0, hp0⟩
        · exact Or.inl (List.mem_cons_of_mem _ h2)
        · exact Or.inr ⟨h2, r0, List.mem_cons_of_mem _ hr0, hp0⟩

theorem mem_replaceFirst_of_mem (p : Record → Bool) (x a : Record) (l : List Record)
    (h : a ∈ l) : a ∈ replaceFirst p x l ∨ (p a = true ∧ x ∈ replaceFirst p x l) := by
  induction l with
  | nil => simp at h
  | cons b t ih =>
    by_cases hb : p b = true
    · rcases List.mem_cons.mp h with h1 | h1
      · right
        rw [h1]
        exact ⟨hb, by simp [replaceFirst, hb]⟩
      · left
        simp [replaceFirst, hb, h1]
    · rcases List.mem_cons.mp h with h1 | h1
      · left
        simp [replaceFirst, hb, h1]
      · rcases ih h1 with h2 | ⟨h2, h3⟩
        · left
          simp [replaceFirst, hb, h2]
        · right
          exact ⟨h2, by simp [replaceFirst, hb, h3]⟩

theorem matches_both_iff (id v : Int) (r : Record) :
    Filter.matches ⟨some id, some v⟩ r = true ↔ r.docID = id ∧ r.docVersion = v := by
  rw [matches_both]
  simp

/-! ## Uniqueness of versions -/

/-- One call keeps the versions of every id distinct, as long as the stored
versions are not at the top of the integer range. -/
theorem exec_preserves (c : Collection) (x : Call) (n : Int) (hn : 0 ≤ n)
    (hn1 : n + 1 ≤ maxInt) (hu : UniqueVersions c) (hb : VersionsBelow c.records (n + 1)) :
    UniqueVersions (x.exec c) ∧ VersionsBelow (x.exec c).records n := by
  have hmin : minInt = -9223372036854775808 := rfl
  have hmax : maxInt = 9223372036854775807 := rfl
  have hb0 : VersionsBelow c.records n :=
    fun r hr => ⟨(hb r hr).1, by have := (hb r hr).2; omega⟩
  cases x with
  | store doc =>
    simp only [Call.exec]
    rcases StoreDocument_spec c doc with ⟨-, hrec⟩ | ⟨-, hrec, hver⟩
    · unfold UniqueVersions
      rw [hrec]
      exact ⟨hu, hb0⟩
    · have hv : minInt ≤ (StoreDocument c doc).1.1 ∧ (StoreDocument c doc).1.1 + n ≤ maxInt ∧
          ∀ r ∈ c.records, r.docID = doc.DocID → r.docVersion < (StoreDocument c doc).1.1 := by
        rcases hver with ⟨hno, h1⟩ | ⟨d, hmem, hid, hmax, hw⟩
        · rw [h1]
          refine ⟨by omega, by omega, ?_⟩
          intro r hr hid
          exact absurd hid (hno r hr)
        · have hbd := hb _ hmem
          simp only [Record.docVersion] at hbd
          have hwe : wrapInt (d.DocVersion + 1) = d.DocVersion + 1 :=
            wrapInt_eq _ (by omega) (by omega)
          rw [hw, hwe]
          refine ⟨by omega, by omega, ?_⟩
          intro r hr hid
          have := hmax r hr hid
          omega
      constructor
      · unfold UniqueVersions at hu ⊢
        rw [hrec, List.map_append, List.nodup_append]
        refine ⟨hu, by simp, ?_⟩
        intro k hk1 hk2
        simp only [List.map_cons, List.map_nil, List.mem_singleton] at hk2
        obtain ⟨r, hr, hkr⟩ := List.mem_map.mp hk1
        rw [hk2] at hkr
        have h1 : r.docID = doc.DocID := congrArg Prod.fst hkr
        have h2 : r.docVersion = (StoreDocument c doc).1.1 := congrArg Prod.snd hkr
        have := hv.2.2 r hr h1
        omega
      · intro r hr
        rw [hrec] at hr
        rcases List.mem_append.mp hr with h | h
        · exact hb0 r h
        · rw [List.mem_singleton.mp h]
          exact ⟨hv.1, hv.2.1⟩
  | update doc v =>
    simp only [Call.exec]
    rcases UpdateDocument_spec c doc v with ⟨-, hrec⟩ | ⟨-, hrec⟩
    · unfold UniqueVersions
      rw [hrec]
      exact ⟨hu, hb0⟩
    · constructor
      · unfold UniqueVersions at hu ⊢
        rw [hrec, map_key_replaceFirst]
        · exact hu
        · intro r hp
          have := (matches_both_iff _ _ _).mp hp
          exact Prod.ext this.1 this.2
      · intro r hr
        rw [hrec] at hr
        rcases mem_replaceFirst _ _ _ _ hr with h | ⟨h, r0, hr0, hp0⟩
        · exact hb0 r h
        · have h0 := (matches_both_iff _ _ _).mp hp0
          have hb1 := hb0 r0 hr0
          rw [h0.2] at hb1
          rw [h]
          exact hb1
  | remove id v =>
    simp only [Call.exec]
    rcases RemoveDocument_spec c id v with ⟨-, hrec⟩ | ⟨-, hrec⟩
    · unfold UniqueVersions
      rw [hrec]
      exact ⟨hu, hb0⟩
    · have hsub : List.Sublist (RemoveDocument c id v).2.records c.records := by
        rw [hrec]
        split
        · exact List.filter_sublist _
        · exact List.eraseP_sublist _
      constructor
      · unfold UniqueVersions at hu ⊢
        exact List.Nodup.sublist (List.Sublist.map _ hsub) hu
      · intro r hr
        exact hb0 r (hsub.subset hr)

theorem execAll_preserves (calls : List Call) :
    ∀ (c : Collection), UniqueVersions c →
      VersionsBelow c.records (calls.length : Int) → (calls.length : Int) ≤ maxInt →
      UniqueVersions (execAll c calls) := by
  induction calls with
  | nil => intro c hu _ _; exact hu
  | cons x xs ih =>
    intro c hu hb hlen
    simp only [List.length_cons, Nat.cast_add, Nat.cast_one] at hb hlen
    obtain ⟨hu2, hb2⟩ := exec_preserves c x (xs.length : Int) (by omega) hlen hu hb
    exact ih (x.exec c) hu2 hb2 (by omega)

/-! ## Monotonicity of the versions returned for one id -/

theorem LatestIs_of_same (d : Int) (l1 l2 : List Record) (m : Int)
    (hsame : ∀ r, r.docID = d → (r ∈ l2 ↔ r ∈ l1)) (hl : LatestIs d l1 m) :
    LatestIs d l2 m := by
  refine ⟨fun r hr hid => hl.1 r ((hsame r hid).mp hr) hid, ?_⟩
  rcases hl.2 with ⟨h0, hno⟩ | ⟨h1, r, hr, hid, hv⟩
  · left
    refine ⟨h0, ?_⟩
    intro r hr hid
    exact hno r ((hsame r hid).mp hr) hid
  · right
    exact ⟨h1, r, (hsame r hid).mpr hr, hid, hv⟩

theorem LatestIs_replaceFirst (d : Int) (l : List Record) (m : Int) (doc : ClientDocument)
    (v : Int) (hl : LatestIs d l m) :
    LatestIs d
      (replaceFirst (Filter.matches ⟨some doc.DocID, some v⟩) (Record.ok ⟨v, doc⟩) l) m := by
  have hx1 : (Record.ok ⟨v, doc⟩).docID = doc.DocID := rfl
  have hx2 : (Record.ok ⟨v, doc⟩).docVersion = v := rfl
  refine ⟨?_, ?_⟩
  · intro r hr hid
    rcases mem_replaceFirst _ _ _ _ hr with h | ⟨h, r0, hr0, hp0⟩
    · exact hl.1 r h hid
    · have h0 := (matches_both_iff _ _ _).mp hp0
      rw [h, hx1] at hid
      rw [h, hx2, ← h0.2]
      exact hl.1 r0 hr0 (h0.1.trans hid)
  · rcases hl.2 with ⟨hm0, hno⟩ | ⟨h1, r, hr, hid, hv⟩
    · left
      refine ⟨hm0, ?_⟩
      intro r hr hid
      rcases mem_replaceFirst _ _ _ _ hr with h | ⟨h, r0, hr0, hp0⟩
      · exact hno r h hid
      · have h0 := (matches_both_iff _ _ _).mp hp0
        rw [h, hx1] at hid
        exact hno r0 hr0 (h0.1.trans hid)
    · right
      refine ⟨h1, ?_⟩
      rcases mem_replaceFirst_of_mem (Filter.matches ⟨some doc.DocID, some v⟩)
          (Record.ok ⟨v, doc⟩) r l hr with h | ⟨hp, hxmem⟩
      · exact ⟨r, h, hid, hv⟩
      · have h0 := (matches_both_iff _ _ _).mp hp
        refine ⟨_, hxmem, ?_, ?_⟩
        · rw [hx1, ← h0.1]; exact hid
        · rw [hx2, ← h0.2]; exact hv

theorem RemoveDocument_sublist (c : Collection) (id v : Int) :
    List.Sublist (RemoveDocument c id v).2.records c.records := by
  rcases RemoveDocument_spec c id v with ⟨-, hrec⟩ | ⟨-, hrec⟩
  · rw [hrec]
  · rw [hrec]
    split
    · exact List.filter_sublist _
    · exact List.eraseP_sublist _

theorem LatestIs_of_remove (d : Int) (c : Collection) (id v m : Int)
    (hl : LatestIs d c.records m)
    (hkeep : KeepsLatest d c.records (RemoveDocument c id v).2.records) :
    LatestIs d (RemoveDocument c id v).2.records m := by
  have hsub := (RemoveDocument_sublist c id v).subset
  refine ⟨fun r hr hid => hl.1 r (hsub hr) hid, ?_⟩
  rcases hl.2 with ⟨h0, hno⟩ | ⟨h1, r, hr, hid, hv⟩
  · exact Or.inl ⟨h0, fun r hr => hno r (hsub hr)⟩
  · right
    obtain ⟨r2, hr2, hid2, hv2⟩ := hkeep r hr hid (by
      intro r1 hr1 hid1
      rw [hv]
      exact hl.1 r1 hr1 hid1)
    exact ⟨h1, r2, hr2, hid2, hv2.trans hv⟩

/-- Core of C10: as long as no removal deletes the largest stored version of
`d`, the versions returned for `d` exceed the largest version of `d` present
before and increase strictly. -/
theorem storedVersions_increasing (d : Int) (calls : List Call) :
    ∀ (c : Collection) (m : Int), 0 ≤ m → LatestIs d c.records m →
      m + (calls.length : Int) ≤ maxInt → RemovalsKeepLatest d c calls →
      (storedVersions d c calls).Pairwise (fun a b => a < b) ∧
      ∀ v ∈ storedVersions d c calls, m < v := by
  induction calls with
  | nil =>
    intro c m _ _ _ _
    simp [storedVersions]
  | cons x xs ih =>
    intro c m hm hl hlen hnr
    simp only [List.length_cons, Nat.cast_add, Nat.cast_one] at hlen
    cases x with
    | store doc =>
      have hnr2 : RemovalsKeepLatest d (StoreDocument c doc).2 xs := hnr
      by_cases hd : doc.DocID = d
      · rcases StoreDocument_step c doc m (by rw [hd]; exact hl) (by omega) with
          ⟨hne, hrec⟩ | ⟨hres, hrec⟩
        · have hih := ih (StoreDocument c doc).2 m hm (by rw [hrec]; exact hl) (by omega) hnr2
          simp only [storedVersions, hne, and_false, if_false]
          exact hih
        · have hih := ih (StoreDocument c doc).2 (m + 1) (by omega)
            (by rw [hrec]; exact LatestIs_append_same d c.records m doc hd hm hl)
            (by omega) hnr2
          have h1 : (StoreDocument c doc).1.1 = m + 1 := by rw [hres]
          have h2 : (StoreDocument c doc).1.2 = none := by rw [hres]
          simp only [storedVersions, hd, h2, and_self, if_true, h1, List.pairwise_cons,
            List.mem_cons]
          refine ⟨⟨fun a ha => hih.2 a ha, hih.1⟩, ?_⟩
          intro v hv
          rcases hv with hv | hv
          · omega
          · have := hih.2 v hv
            omega
      · have hl2 : LatestIs d (StoreDocument c doc).2.records m := by
          rcases StoreDocument_spec c doc with ⟨-, hrec⟩ | ⟨-, hrec, -⟩
          · rw [hrec]; exact hl
          · rw [hrec]
            apply LatestIs_of_same d c.records _ m _ hl
            intro r hid
            simp only [List.mem_append, List.mem_singleton]
            constructor
            · rintro (h | h)
              · exact h
              · rw [h] at hid
                exact absurd hid hd
            · exact Or.inl
        have hih := ih (StoreDocument c doc).2 m hm hl2 (by omega) hnr2
        simp only [storedVersions, hd, false_and, if_false]
        exact hih
    | update doc v =>
      have hnr2 : RemovalsKeepLatest d (UpdateDocument c doc v).2 xs := hnr
      have hl2 : LatestIs d (UpdateDocument c doc v).2.records m := by
        rcases UpdateDocument_spec c doc v with ⟨-, hrec⟩ | ⟨-, hrec⟩
        · rw [hrec]; exact hl
        · rw [hrec]; exact LatestIs_replaceFirst d c.records m doc v hl
      have hih := ih (UpdateDocument c doc v).2 m hm hl2 (by omega) hnr2
      simp only [storedVersions]
      exact hih
    | remove id v =>
      have hkeep : KeepsLatest d c.records (RemoveDocument c id v).2.records := hnr.1
      have hnr2 : RemovalsKeepLatest d (RemoveDocument c id v).2 xs := hnr.2
      have hl2 : LatestIs d (RemoveDocument c id v).2.records m :=
        LatestIs_of_remove d c id v m hl hkeep
      have hih := ih (RemoveDocument c id v).2 m hm hl2 (by omega) hnr2
      simp only [storedVersions]
      exact hih

/-! ## Versions reachable from the empty collection -/

/-- One call keeps every stored version at least 1, as long as the stored
versions are not at the top of the integer range. -/
theorem exec_positive (c : Collection) (x : Call) (n : Int) (hn : 0 ≤ n)
    (hn1 : n + 1 ≤ maxInt)
    (hb : ∀ r ∈ c.records, 1 ≤ r.docVersion ∧ r.docVersion + (n + 1) ≤ maxInt) :
    ∀ r ∈ (x.exec c).records, 1 ≤ r.docVersion ∧ r.docVersion + n ≤ maxInt := by
  have hmin : minInt = -9223372036854775808 := rfl
  have hmax : maxInt = 9223372036854775807 := rfl
  have hb0 : ∀ r ∈ c.records, 1 ≤ r.docVersion ∧ r.docVersion + n ≤ maxInt :=
    fun r hr => ⟨(hb r hr).1, by have := (hb r hr).2; omega⟩
  cases x with
  | store doc =>
    simp only [Call.exec]
    rcases StoreDocument_spec c doc with ⟨-, hrec⟩ | ⟨-, hrec, hver⟩
    · rw [hrec]; exact hb0
    · intro r hr
      rw [hrec] at hr
      rcases List.mem_append.mp hr with h | h
      · exact hb0 r h
      · rw [List.mem_singleton.mp h]
        simp only [Record.docVersion]
        rcases hver with ⟨-, h1⟩ | ⟨d, hmem, -, -, hw⟩
        · rw [h1]; omega
        · have hbd := hb _ hmem
          simp only [Record.docVersion] at hbd
          have hwe : wrapInt (d.DocVersion + 1) = d.DocVersion + 1 :=
            wrapInt_eq _ (by omega) (by omega)
          rw [hw, hwe]
          omega
  | update doc v =>
    simp only [Call.exec]
    rcases UpdateDocument_spec c doc v with ⟨-, hrec⟩ | ⟨-, hrec⟩
    · rw [hrec]; exact hb0
    · intro r hr
      rw [hrec] at hr
      rcases mem_replaceFirst _ _ _ _ hr with h | ⟨h, r0, hr0, hp0⟩
      · exact hb0 r h
      · have h0 := (matches_both_iff _ _ _).mp hp0
        have hb1 := hb0 r0 hr0
        rw [h0.2] at hb1
        rw [h]
        exact hb1
  | remove id v =>
    simp only [Call.exec]
    intro r hr
    exact hb0 r ((RemoveDocument_sublist c id v).subset hr)

/-- Every record that a sequence of at most 2^63 - 1 calls leaves behind,
starting from the empty collection, has a version of at least 1: version 0 is
never stored. -/
theorem execAll_positive (calls : List Call) :
    ∀ (c : Collection), (calls.length : Int) ≤ maxInt →
      (∀ r ∈ c.records, 1 ≤ r.docVersion ∧ r.docVersion + (calls.length : Int) ≤ maxInt) →
      ∀ r ∈ (execAll c calls).records, 1 ≤ r.docVersion := by
  induction calls with
  | nil =>
    intro c _ hb r hr
    exact (hb r hr).1
  | cons x xs ih =>
    intro c hlen hb
    simp only [List.length_cons, Nat.cast_add, Nat.cast_one] at hb hlen
    have h2 := exec_positive c x (xs.length : Int) (by omega) hlen hb
    exact ih (x.exec c) (by omega) h2

theorem execAll_empty_positive (faults : List (Option Err)) (calls : List Call)
    (hlen : (calls.length : Int) ≤ maxInt) :
    ∀ r ∈ (execAll ⟨[], faults⟩ calls).records, 1 ≤ r.docVersion :=
  execAll_positive calls ⟨[], faults⟩ hlen (fun r hr => absurd hr (List.not_mem_nil r))

/-! ## Properties of the store -/

/-- C1: starting from a collection with no record of `d`, with no backend
failure, the calls of `StoreDocument` on `n` documents that all carry
`doc_id = d` (with `n` at most the largest `int`, so that `n` is a value the
call can return) return, in order, the versions 1, 2, ..., `n`, each with a
nil error. -/
theorem C1_sequential_store_versions (c : Collection) (d : Int)
    (docs : List ClientDocument) (hnf : NoFault c)
    (hnew : ∀ r ∈ c.records, r.docID ≠ d)
    (hd : ∀ doc ∈ docs, doc.DocID = d)
    (hlen : (docs.length : Int) ≤ maxInt) :
    storeAll c docs = (List.range' 1 docs.length).map (fun k => ((k : Int), none)) := by
  have h := storeAll_from d docs c 0 hnf (fun r hr hid => absurd hid (hnew r hr))
    ⟨fun r hr hid => absurd hid (hnew r hr), Or.inl ⟨rfl, hnew⟩⟩ hd (by simpa using hlen)
  simpa using h

theorem C1_sequential_store_versions_witness :
    storeAll ⟨[Record.ok ⟨5, ⟨2, "x", []⟩⟩], [none]⟩
        [⟨1, "a", []⟩, ⟨1, "b", []⟩, ⟨1, "c", [⟨"t", "h2"⟩]⟩]
      = (List.range' 1 [(⟨1, "a", []⟩ : ClientDocument), ⟨1, "b", []⟩,
          ⟨1, "c", [⟨"t", "h2"⟩]⟩].length).map (fun k => ((k : Int), none)) :=
  C1_sequential_store_versions ⟨[Record.ok ⟨5, ⟨2, "x", []⟩⟩], [none]⟩ 1
    [⟨1, "a", []⟩, ⟨1, "b", []⟩, ⟨1, "c", [⟨"t", "h2"⟩]⟩]
    (by unfold NoFault; decide) (by decide) (by decide) (by decide)

/-- C2: for a collection holding at least one record of `id`, with no backend
failure and decodable records of `id`, `RetrieveDocument(id, 0)` returns
without error the payload of a stored record of `id` whose version is the
maximum over all records of `id`. -/
theorem C2_retrieve_latest_is_max (c : Collection) (id : Int) (hnf : NoFault c)
    (hex : ∃ r ∈ c.records, r.docID = id)
    (hok : ∀ r ∈ c.records, r.docID = id → r.Decode.2 = none) :
    ∃ d, (RetrieveDocument c id 0).1 = (some d.ClientDoc, none) ∧
      Record.ok d ∈ c.records ∧ d.ClientDoc.DocID = id ∧
      ∀ r ∈ c.records, r.docID = id → r.docVersion ≤ d.DocVersion := by
  rcases findOne_latest_noFault c id hnf hok with ⟨-, hno⟩ | ⟨d, hf, hrest⟩
  · obtain ⟨r, hr, hid⟩ := hex
    exact absurd hid (hno r hr)
  · refine ⟨d, ?_, hrest⟩
    rw [RetrieveDocument_fst, hf]

theorem C2_retrieve_latest_is_max_witness :
    ∃ d, (RetrieveDocument ⟨[Record.ok ⟨1, ⟨4, "a", []⟩⟩, Record.ok ⟨3, ⟨4, "c", []⟩⟩,
        Record.ok ⟨2, ⟨4, "b", []⟩⟩], [none]⟩ 4 0).1 = (some d.ClientDoc, none) ∧
      Record.ok d ∈ [Record.ok ⟨1, ⟨4, "a", []⟩⟩, Record.ok ⟨3, ⟨4, "c", []⟩⟩,
        Record.ok ⟨2, ⟨4, "b", []⟩⟩] ∧ d.ClientDoc.DocID = 4 ∧
      ∀ r ∈ [Record.ok ⟨1, ⟨4, "a", []⟩⟩, Record.ok ⟨3, ⟨4, "c", []⟩⟩,
        Record.ok ⟨2, ⟨4, "b", []⟩⟩], r.docID = 4 → r.docVersion ≤ d.DocVersion :=
  C2_retrieve_latest_is_max
    ⟨[Record.ok ⟨1, ⟨4, "a", []⟩⟩, Record.ok ⟨3, ⟨4, "c", []⟩⟩,
      Record.ok ⟨2, ⟨4, "b", []⟩⟩], [none]⟩ 4
    (by unfold NoFault; decide) (by decide) (by decide)

/-- C3 as stated fails at the sentinel version 0: the collection holds no
record (7, 0), yet `RetrieveDocument(7, 0)` returns the latest document of 7
instead of the not-found outcome. -/
theorem C3_counterexample :
    NoFault ⟨[Record.ok ⟨1, ⟨7, "a", []⟩⟩], []⟩ ∧
    (∀ r ∈ [Record.ok ⟨1, ⟨7, "a", []⟩⟩], ¬ (r.docID = 7 ∧ r.docVersion = 0)) ∧
    (RetrieveDocument ⟨[Record.ok ⟨1, ⟨7, "a", []⟩⟩], []⟩ 7 0).1
      = (some ⟨7, "a", []⟩, none) :=
  ⟨by unfold NoFault; decide, by decide, by decide⟩

/-- C3 (amended): when the collection holds no record with `doc_id = id` and
`doc_version = v` and, in the case `v = 0` (the request for the latest
version), no record with `doc_id = id` at all, and the backend reports no
error, `RetrieveDocument(id, v)` returns the not-found outcome (nil document,
nil error). -/
theorem C3_retrieve_absent_not_found (c : Collection) (id v : Int) (hnf : NoFault c)
    (habs : ∀ r ∈ c.records, r.docID = id → ¬ (v = 0 ∨ r.docVersion = v)) :
    (RetrieveDocument c id v).1 = (none, none) := by
  by_cases hv : v = 0
  · subst hv
    have hno : ∀ r ∈ c.records, r.docID ≠ id :=
      fun r hr hid => habs r hr hid (Or.inl rfl)
    rcases findOne_latest_noFault c id hnf (fun r hr hid => absurd hid (hno r hr)) with
      ⟨hf, -⟩ | ⟨d, -, hmem, hid, -⟩
    · rw [RetrieveDocument_fst, hf]
    · exact absurd hid (hno _ hmem)
  · have hfilter : c.records.filter (Filter.matches ⟨some id, some v⟩) = [] := by
      rw [List.filter_eq_nil_iff]
      intro r hr hm
      have h := (matches_both_iff id v r).mp hm
      exact habs r hr h.1 (Or.inr h.2)
    rw [RetrieveDocument_fst, findOne_exact c id v hnf hv, hfilter]

theorem C3_retrieve_absent_not_found_witness :
    (RetrieveDocument ⟨[Record.ok ⟨1, ⟨1, "www.test.com", [⟨"testing 123", "h2"⟩]⟩⟩],
      [none, none]⟩ 0 0).1 = (none, none) :=
  C3_retrieve_absent_not_found
    ⟨[Record.ok ⟨1, ⟨1, "www.test.com", [⟨"testing 123", "h2"⟩]⟩⟩], [none, none]⟩ 0 0
    (by unfold NoFault; decide) (by decide)

/-- C5: after a successful `RemoveDocument(id, 0)`, with no backend failure
afterwards, `RetrieveDocument(id, 0)` returns the not-found outcome, and the
records with another `doc_id` are the same as before, in the same order. -/
theorem C5_remove_all_then_not_found (c : Collection) (id : Int)
    (hsucc : (RemoveDocument c id 0).1 = none)
    (hnf : NoFault (RemoveDocument c id 0).2) :
    (RetrieveDocument (RemoveDocument c id 0).2 id 0).1 = (none, none) ∧
    (RemoveDocument c id 0).2.records.filter (fun r => decide (r.docID ≠ id))
      = c.records.filter (fun r => decide (r.docID ≠ id)) := by
  have hrec : (RemoveDocument c id 0).2.records
      = c.records.filter (fun r => decide (r.docID ≠ id)) := by
    rcases RemoveDocument_spec c id 0 with ⟨hne, -⟩ | ⟨-, h⟩
    · exact absurd hsucc hne
    · rw [h]
      simp [matches_id]
  constructor
  · have hno : ∀ r ∈ (RemoveDocument c id 0).2.records, r.docID ≠ id := by
      intro r hr
      rw [hrec] at hr
      simpa using (List.mem_filter.mp hr).2
    rcases findOne_latest_noFault (RemoveDocument c id 0).2 id hnf
        (fun r hr hid => absurd hid (hno r hr)) with ⟨hf, -⟩ | ⟨d, -, hmem, hid, -⟩
    · rw [RetrieveDocument_fst, hf]
    · exact absurd hid (hno _ hmem)
  · rw [hrec, List.filter_filter]
    simp

theorem C5_remove_all_then_not_found_witness :
    (RetrieveDocument (RemoveDocument ⟨[Record.ok ⟨1, ⟨7, "a", []⟩⟩,
        Record.ok ⟨1, ⟨8, "x", []⟩⟩, Record.ok ⟨2, ⟨7, "b", []⟩⟩], []⟩ 7 0).2 7 0).1
      = (none, none) ∧
    (RemoveDocument ⟨[Record.ok ⟨1, ⟨7, "a", []⟩⟩,
        Record.ok ⟨1, ⟨8, "x", []⟩⟩, Record.ok ⟨2, ⟨7, "b", []⟩⟩], []⟩ 7 0).2.records.filter
        (fun r => decide (r.docID ≠ 7))
      = [Record.ok ⟨1, ⟨7, "a", []⟩⟩, Record.ok ⟨1, ⟨8, "x", []⟩⟩,
          Record.ok ⟨2, ⟨7, "b", []⟩⟩].filter (fun r => decide (r.docID ≠ 7)) :=
  C5_remove_all_then_not_found ⟨[Record.ok ⟨1, ⟨7, "a", []⟩⟩,
      Record.ok ⟨1, ⟨8, "x", []⟩⟩, Record.ok ⟨2, ⟨7, "b", []⟩⟩], []⟩ 7
    (by decide) (by unfold NoFault; decide)

/-- C6: for a version `v` other than 0, with no backend failure,
`RemoveDocument(id, v)` succeeds, removes at most one record, a removed record
carries `doc_id = id` and `doc_version = v`, all other records stay in place,
and for every `(id1, v1)` with `v1` other than 0 and different from `(id, v)`
the call `RetrieveDocument(id1, v1)` returns the same result after the removal
as before it. -/
theorem C6_remove_one_frame (c : Collection) (id v : Int) (hnf : NoFault c) (hv : v ≠ 0) :
    (RemoveDocument c id v).1 = none ∧
    ((RemoveDocument c id v).2.records = c.records ∨
      ∃ l1 r l2, c.records = l1 ++ r :: l2 ∧ (RemoveDocument c id v).2.records = l1 ++ l2 ∧
        r.docID = id ∧ r.docVersion = v) ∧
    ∀ id1 v1 : Int, v1 ≠ 0 → (id1, v1) ≠ (id, v) →
      (RetrieveDocument (RemoveDocument c id v).2 id1 v1).1 = (RetrieveDocument c id1 v1).1 := by
  obtain ⟨hsucc, hnf2⟩ := RemoveDocument_noFault c id v hnf
  have hrec : (RemoveDocument c id v).2.records
      = c.records.eraseP (Filter.matches ⟨some id, some v⟩) := by
    rcases RemoveDocument_spec c id v with ⟨hne, -⟩ | ⟨-, h⟩
    · exact absurd hsucc hne
    · rw [h, if_neg hv]
  refine ⟨hsucc, ?_, ?_⟩
  · rcases List.exists_or_eq_self_of_eraseP (Filter.matches ⟨some id, some v⟩) c.records with
      h | ⟨r, l1, l2, -, hp, hl, he⟩
    · left
      rw [hrec, h]
    · right
      rw [matches_both] at hp
      have hp2 : r.docID = id ∧ r.docVersion = v := by simpa using hp
      exact ⟨l1, r, l2, hl, by rw [hrec, he], hp2.1, hp2.2⟩
  · intro id1 v1 hv1 hne
    rw [RetrieveDocument_fst, RetrieveDocument_fst, findOne_exact _ id1 v1 hnf2 hv1,
      findOne_exact c id1 v1 hnf hv1, hrec, filter_eraseP_disjoint]
    intro r hq
    rw [matches_both] at hq ⊢
    have hq2 : r.docID = id ∧ r.docVersion = v := by simpa using hq
    have : ¬ (r.docID = id1 ∧ r.docVersion = v1) := by
      rintro ⟨h1, h2⟩
      apply hne
      rw [← h1, ← h2, hq2.1, hq2.2]
    simpa using this

theorem C6_remove_one_frame_witness :
    (RemoveDocument ⟨[Record.ok ⟨1, ⟨7, "a", []⟩⟩, Record.ok ⟨2, ⟨7, "b", []⟩⟩], []⟩ 7 1).1
      = none ∧
    ((RemoveDocument ⟨[Record.ok ⟨1, ⟨7, "a", []⟩⟩, Record.ok ⟨2, ⟨7, "b", []⟩⟩], []⟩
        7 1).2.records = [Record.ok ⟨1, ⟨7, "a", []⟩⟩, Record.ok ⟨2, ⟨7, "b", []⟩⟩] ∨
      ∃ l1 r l2, [Record.ok ⟨1, ⟨7, "a", []⟩⟩, Record.ok ⟨2, ⟨7, "b", []⟩⟩] = l1 ++ r :: l2 ∧
        (RemoveDocument ⟨[Record.ok ⟨1, ⟨7, "a", []⟩⟩, Record.ok ⟨2, ⟨7, "b", []⟩⟩], []⟩
          7 1).2.records = l1 ++ l2 ∧ r.docID = 7 ∧ r.docVersion = 1) ∧
    ∀ id1 v1 : Int, v1 ≠ 0 → (id1, v1) ≠ (7, 1) →
      (RetrieveDocument (RemoveDocument ⟨[Record.ok ⟨1, ⟨7, "a", []⟩⟩,
          Record.ok ⟨2, ⟨7, "b", []⟩⟩], []⟩ 7 1).2 id1 v1).1
        = (RetrieveDocument ⟨[Record.ok ⟨1, ⟨7, "a", []⟩⟩,
          Record.ok ⟨2, ⟨7, "b", []⟩⟩], []⟩ id1 v1).1 :=
  C6_remove_one_frame ⟨[Record.ok ⟨1, ⟨7, "a", []⟩⟩, Record.ok ⟨2, ⟨7, "b", []⟩⟩], []⟩ 7 1
    (by unfold NoFault; decide) (by decide)

/-- C7: on a collection that stores no version 0 (the value reserved for
"latest", which no sequence of calls from the empty collection stores), for
every payload `doc` and every version `v` such that the collection holds a
record with `doc_id = doc.DocID` and `doc_version = v`, `UpdateDocument(doc, v)`
with no backend failure succeeds and `RetrieveDocument(doc.DocID, v)`
afterwards returns exactly `doc`. -/
theorem C7_update_then_retrieve (c : Collection) (doc : ClientDocument) (v : Int)
    (hnf : NoFault c) (hno0 : ∀ r ∈ c.records, r.docVersion ≠ 0)
    (hex : ∃ r ∈ c.records, r.docID = doc.DocID ∧ r.docVersion = v) :
    (UpdateDocument c doc v).1 = none ∧
    (RetrieveDocument (UpdateDocument c doc v).2 doc.DocID v).1 = (some doc, none) := by
  have hv : v ≠ 0 := by
    obtain ⟨r, hr, -, hrv⟩ := hex
    rw [← hrv]
    exact hno0 r hr
  obtain ⟨hsucc, hnf2⟩ := UpdateDocument_noFault c doc v hnf
  refine ⟨hsucc, ?_⟩
  have hrec : (UpdateDocument c doc v).2.records
      = replaceFirst (Filter.matches ⟨some doc.DocID, some v⟩) (Record.ok ⟨v, doc⟩)
          c.records := by
    rcases UpdateDocument_spec c doc v with ⟨hne, -⟩ | ⟨-, h⟩
    · exact absurd hsucc hne
    · exact h
  have hx : Filter.matches ⟨some doc.DocID, some v⟩ (Record.ok ⟨v, doc⟩) = true := by
    simp [matches_both, Record.docID, Record.docVersion]
  have hex2 : ∃ r ∈ c.records, Filter.matches ⟨some doc.DocID, some v⟩ r = true := by
    obtain ⟨r, hr, h1, h2⟩ := hex
    exact ⟨r, hr, by simp [matches_both, h1, h2]⟩
  obtain ⟨t, ht⟩ := filter_replaceFirst_head _ _ hx c.records hex2
  rw [RetrieveDocument_fst, findOne_exact _ doc.DocID v hnf2 hv, hrec, ht]
  simp [Record.Decode]

theorem C7_update_then_retrieve_witness :
    (UpdateDocument ⟨[Record.ok ⟨1, ⟨1, "a", []⟩⟩, Record.ok ⟨2, ⟨1, "b", []⟩⟩], []⟩
      ⟨1, "c", [⟨"testing 123", "h4"⟩]⟩ 1).1 = none ∧
    (RetrieveDocument (UpdateDocument ⟨[Record.ok ⟨1, ⟨1, "a", []⟩⟩,
      Record.ok ⟨2, ⟨1, "b", []⟩⟩], []⟩ ⟨1, "c", [⟨"testing 123", "h4"⟩]⟩ 1).2 1 1).1
      = (some ⟨1, "c", [⟨"testing 123", "h4"⟩]⟩, none) :=
  C7_update_then_retrieve ⟨[Record.ok ⟨1, ⟨1, "a", []⟩⟩, Record.ok ⟨2, ⟨1, "b", []⟩⟩], []⟩
    ⟨1, "c", [⟨"testing 123", "h4"⟩]⟩ 1 (by unfold NoFault; decide) (by decide) (by decide)

/-- C8: with no backend failure and no decode failure on the records of
version `v`, `RetrieveDocuments(v)` returns a non-nil sequence and no error;
the sequence is exactly the payloads of the records whose `doc_version` is
`v`, over all ids, in the order of the collection (hence empty, not nil, when
there is none). -/
theorem C8_retrieve_documents_exact (c : Collection) (v : Int) (hnf : NoFault c)
    (hok : ∀ r ∈ c.records, r.docVersion = v → r.Decode.2 = none) :
    (RetrieveDocuments c v).1 =
      (some ((c.records.filter (fun r => decide (r.docVersion = v))).map
        (fun r => r.Decode.1.ClientDoc)), none) := by
  obtain ⟨c1, hc, hr, -⟩ := call_eq_of_noFault c hnf
  have hfun : Filter.matches ⟨none, some v⟩ = fun r => decide (r.docVersion = v) := by
    funext r
    exact matches_version v r
  simp only [RetrieveDocuments, Collection.Find, hc, findRecords_plain, hr, hfun]
  rw [decodeLoop_fst, decodeLoop_snd _ _ _ rfl]
  · simp
  · intro r hmem
    have := List.mem_filter.mp hmem
    exact hok r this.1 (by simpa using this.2)

theorem C8_retrieve_documents_exact_witness :
    (RetrieveDocuments ⟨[Record.ok ⟨1, ⟨1, "a", []⟩⟩, Record.ok ⟨2, ⟨1, "b", []⟩⟩,
        Record.ok ⟨1, ⟨5, "e", []⟩⟩], []⟩ 1).1 =
      (some (([Record.ok ⟨1, ⟨1, "a", []⟩⟩, Record.ok ⟨2, ⟨1, "b", []⟩⟩,
        Record.ok ⟨1, ⟨5, "e", []⟩⟩].filter (fun r => decide (r.docVersion = 1))).map
        (fun r => r.Decode.1.ClientDoc)), none) :=
  C8_retrieve_documents_exact ⟨[Record.ok ⟨1, ⟨1, "a", []⟩⟩, Record.ok ⟨2, ⟨1, "b", []⟩⟩,
      Record.ok ⟨1, ⟨5, "e", []⟩⟩], []⟩ 1 (by unfold NoFault; decide) (by decide)

/-- C9 (the code at the failing input): the first record of version 1 fails
to decode with error `e`, the second decodes; `RetrieveDocuments(1)` returns
a nil error, and the sequence holds the residue of the failed decode followed
by the second payload. -/
theorem C9_decode_error_overwritten (residue : DBDocument) (e : Err)
    (doc : ClientDocument) :
    (RetrieveDocuments ⟨[Record.bad 1 1 residue e, Record.ok ⟨1, doc⟩], []⟩ 1).1
      = (some [residue.ClientDoc, doc], none) := by
  simp [RetrieveDocuments, Collection.Find, Collection.call, findRecords, Filter.matches,
    Record.docVersion, decodeLoop, Record.Decode]

/-- C4 as stated fails where the version counter wraps: the collection holds
one record, of id 1 at the largest `int` version; two `StoreDocument` calls
for id 1 each find that record as the latest, each compute the wrapped
successor, and leave two records of id 1 with the same version. -/
theorem C4_counterexample :
    UniqueVersions ⟨[Record.ok ⟨9223372036854775807, ⟨1, "a", []⟩⟩], []⟩ ∧
    ¬ UniqueVersions (execAll ⟨[Record.ok ⟨9223372036854775807, ⟨1, "a", []⟩⟩], []⟩
        [Call.store ⟨1, "b", []⟩, Call.store ⟨1, "c", []⟩]) := by
  unfold UniqueVersions
  exact ⟨by decide, by decide⟩

/-- C4 (amended): for every collection in which no `doc_id` has two records
with the same `doc_version` and whose versions are 64-bit values that stay
below the largest `int` after as many increments as there are calls, every
sequence of `StoreDocument`, `UpdateDocument` and `RemoveDocument` calls
executed one after another (whether or not a call fails at the backend) leaves
a collection in which no `doc_id` has two records with the same version. -/
theorem C4_unique_versions_preserved (c : Collection) (calls : List Call)
    (hu : UniqueVersions c)
    (hb : ∀ r ∈ c.records,
      minInt ≤ r.docVersion ∧ r.docVersion + (calls.length : Int) ≤ maxInt)
    (hlen : (calls.length : Int) ≤ maxInt) :
    UniqueVersions (execAll c calls) :=
  execAll_preserves calls c hu hb hlen

theorem C4_unique_versions_preserved_witness :
    UniqueVersions (execAll ⟨[Record.ok ⟨1, ⟨1, "a", []⟩⟩, Record.ok ⟨2, ⟨1, "b", []⟩⟩], []⟩
      [Call.store ⟨1, "c", []⟩, Call.update ⟨1, "d", []⟩ 2, Call.remove 1 1,
        Call.store ⟨1, "e", []⟩]) :=
  C4_unique_versions_preserved
    ⟨[Record.ok ⟨1, ⟨1, "a", []⟩⟩, Record.ok ⟨2, ⟨1, "b", []⟩⟩], []⟩
    [Call.store ⟨1, "c", []⟩, Call.update ⟨1, "d", []⟩ 2, Call.remove 1 1,
      Call.store ⟨1, "e", []⟩]
    (by unfold UniqueVersions; decide) (by decide) (by decide)

/-- C10 as stated fails when a removal lies between two stores: from the
empty collection, `StoreDocument` for id 1 returns 1, `RemoveDocument(1, 0)`
deletes it, and the next `StoreDocument` for id 1 returns 1 again. -/
theorem C10_counterexample :
    storedVersions 1 emptyCollection
        [Call.store ⟨1, "a", []⟩, Call.remove 1 0, Call.store ⟨1, "b", []⟩] = [1, 1] ∧
    ¬ (storedVersions 1 emptyCollection
        [Call.store ⟨1, "a", []⟩, Call.remove 1 0, Call.store ⟨1, "b", []⟩]).Pairwise
        (fun a b => a < b) := by
  have h : storedVersions 1 emptyCollection
      [Call.store ⟨1, "a", []⟩, Call.remove 1 0, Call.store ⟨1, "b", []⟩] = [1, 1] := by
    decide
  refine ⟨h, ?_⟩
  rw [h]
  decide

/-- C10 (amended): for every `doc_id` `d` and every sequence of at most
2^63 - 1 `StoreDocument`, `UpdateDocument` and `RemoveDocument` calls executed
one after another from an empty collection, in which no `RemoveDocument` call
deletes the largest version of `d` stored at that moment (removals of older
versions of `d` and of other ids are allowed), the versions returned by the
successful `StoreDocument` calls for `d` are strictly increasing: a later one
never returns a version that an earlier one returned. -/
theorem C10_versions_increase_while_latest_kept (faults : List (Option Err)) (d : Int)
    (calls : List Call) (hkeep : RemovalsKeepLatest d ⟨[], faults⟩ calls)
    (hlen : (calls.length : Int) ≤ maxInt) :
    (storedVersions d ⟨[], faults⟩ calls).Pairwise (fun a b => a < b) :=
  (storedVersions_increasing d calls ⟨[], faults⟩ 0 (le_refl 0)
    ⟨fun r hr _ => absurd hr (List.not_mem_nil r),
      Or.inl ⟨rfl, fun r hr _ => absurd hr (List.not_mem_nil r)⟩⟩
    (by simpa using hlen) hkeep).1

theorem C10_versions_increase_while_latest_kept_witness :
    (storedVersions 1 ⟨[], []⟩
      [Call.store ⟨1, "a", []⟩, Call.store ⟨1, "b", []⟩, Call.remove 1 1,
        Call.update ⟨1, "c", []⟩ 2, Call.remove 2 0, Call.store ⟨1, "d", []⟩]).Pairwise
      (fun a b => a < b) :=
  C10_versions_increase_while_latest_kept [] 1
    [Call.store ⟨1, "a", []⟩, Call.store ⟨1, "b", []⟩, Call.remove 1 1,
      Call.update ⟨1, "c", []⟩ 2, Call.remove 2 0, Call.store ⟨1, "d", []⟩]
    (by simp only [RemovalsKeepLatest, KeepsLatest]; decide) (by decide)

end Knowledge
